import Mathlib

/-!
Verification of the `torchdata.cachers` module: the `Cacher` contract and its
two backends, `Pickle` (disk, one file per index under a directory) and
`Memory` (in-process dictionary).

The filesystem is modelled explicitly: a set of existing directories and a
finite map from paths to file contents.  Paths are lists of components
(`FPath`).  Python/OS behaviour that the code relies on is embedded:
`pathlib.Path.mkdir(parents=True, exist_ok=True)`, `Path.is_file`,
`Path.with_suffix` (including its `ValueError` on invalid suffixes),
`open(..., "wb"/"rb")` (which fails when the parent directory is absent), and
`shutil.rmtree`.  `pickle.dump`/`pickle.load` are modelled by an abstract
serializer with a round-trip law.  Indices are `Nat`, following the spec's
data model ("non-negative integer"); `str(index)` is `Nat.repr`.
-/

namespace Cachers

/-- Errors surfaced by the embedded Python operations. -/
inductive PyError where
  | valueError
  | keyNotFound
  | fileNotFound
  | isADirectoryError
  | fileExistsError
  | deserializationFailure
  deriving DecidableEq, Repr

/-- A filesystem path, as a list of components. -/
abbrev FPath := List String

/-- Filesystem state: the set of existing directories and the existing
regular files with their contents (of type `β`). -/
structure FS (β : Type) where
  dirs : List FPath
  files : List (FPath × β)
  deriving DecidableEq, Repr

/-- Membership test for a path in a list of paths. -/
def memPath : List FPath → FPath → Bool
  | [], _ => false
  | d :: ds, p => if d = p then true else memPath ds p

/-- Look up the contents of a file. -/
def lookupFile {β : Type} : List (FPath × β) → FPath → Option β
  | [], _ => none
  | (q, b) :: rest, p => if q = p then some b else lookupFile rest p

/-- Remove every entry for a given path. -/
def removeFile {β : Type} : List (FPath × β) → FPath → List (FPath × β)
  | [], _ => []
  | (q, b) :: rest, p =>
    if q = p then removeFile rest p else (q, b) :: removeFile rest p

/-- All nonempty initial segments of a path: the path itself and its
ancestors (the directories `mkdir(parents=True)` ensures). -/
def initsOf : FPath → List FPath
  | [] => []
  | x :: xs => [x] :: (initsOf xs).map (x :: ·)

/-- `pathLe p q` holds when `p` is an initial segment of `q`:
`q` is `p` itself or lies below the directory `p`. -/
def pathLe : FPath → FPath → Bool
  | [], _ => true
  | _ :: _, [] => false
  | a :: as, b :: bs => if a = b then pathLe as bs else false

/-- `path.is_file()`: the path names an existing regular file. -/
def FS.isFile {β : Type} (fs : FS β) (p : FPath) : Bool :=
  (lookupFile fs.files p).isSome

/-- `path.is_dir()`: the path names an existing directory. -/
def FS.isDir {β : Type} (fs : FS β) (p : FPath) : Bool :=
  memPath fs.dirs p

/-- `path.mkdir(parents=True, exist_ok=True)`: create the directory and all
missing ancestors; existing directories are fine, but a regular file in the
way is an error. -/
def FS.mkdirParents {β : Type} (fs : FS β) (p : FPath) : Except PyError (FS β) :=
  if (initsOf p).any (fun q => (lookupFile fs.files q).isSome) then
    .error .fileExistsError
  else
    .ok { fs with dirs := initsOf p ++ fs.dirs }

/-- `open(p, "wb")` followed by writing `b`: fails if `p` is a directory or
if the parent directory does not exist; otherwise replaces any previous
contents of `p`. -/
def FS.openWrite {β : Type} (fs : FS β) (p : FPath) (b : β) : Except PyError (FS β) :=
  if memPath fs.dirs p then .error .isADirectoryError
  else if p.dropLast = ([] : FPath) ∨ memPath fs.dirs p.dropLast then
    .ok { fs with files := (p, b) :: removeFile fs.files p }
  else .error .fileNotFound

/-- `open(p, "rb")` followed by reading the full contents. -/
def FS.openRead {β : Type} (fs : FS β) (p : FPath) : Except PyError β :=
  if memPath fs.dirs p then .error .isADirectoryError
  else
    match lookupFile fs.files p with
    | some b => .ok b
    | none => .error .fileNotFound

/-- `shutil.rmtree p`: remove the directory `p` and everything under it. -/
def FS.rmtree {β : Type} (fs : FS β) (p : FPath) : FS β :=
  { dirs := fs.dirs.filter (fun d => !(pathLe p d)),
    files := fs.files.filter (fun e => !(pathLe p e.1)) }

/-- Index of the last occurrence of a character in a list, if any
(Python's `str.rfind`). -/
def lastIdxOf (c : Char) : List Char → Option Nat
  | [] => none
  | x :: xs =>
    match lastIdxOf c xs with
    | some i => some (i + 1)
    | none => if x = c then some 0 else none

/-- `pathlib.PurePath.suffix` of a file name: the final component's
extension, `""` when the last dot is leading, trailing or absent. -/
def pySuffix (name : String) : String :=
  match lastIdxOf '.' name.data with
  | none => ""
  | some i =>
    if 0 < i ∧ i < name.data.length - 1 then ⟨name.data.drop i⟩ else ""

/-- `pathlib.PurePath.with_suffix` applied to a final component `name`:
raises `ValueError` for a suffix containing the separator, a nonempty suffix
not starting with `'.'`, a bare `"."`, or an empty name; otherwise replaces
the current suffix (appends, when there is none). -/
def pyWithSuffixName (name suffix : String) : Except PyError String :=
  if suffix.data.contains '/' then .error .valueError
  else if (suffix.data ≠ [] ∧ suffix.data.head? ≠ some '.') ∨ suffix.data = ['.'] then
    .error .valueError
  else if name.data = [] then .error .valueError
  else
    let old := pySuffix name
    if old = "" then .ok ⟨name.data ++ suffix.data⟩
    else .ok ⟨name.data.take (name.data.length - old.data.length) ++ suffix.data⟩

/-- An extension accepted by `with_suffix`: empty, or starting with a dot,
not a bare dot, and without a path separator. -/
def validExt (suffix : String) : Bool :=
  !(suffix.data.contains '/') &&
    !(decide ((suffix.data ≠ [] ∧ suffix.data.head? ≠ some '.') ∨ suffix.data = ['.']))

/-- The `pickle` module, abstractly: a serializer from values `V` to file
contents `β` whose `load` inverts `dump` (pickle's documented round-trip). -/
structure Serial (V β : Type) where
  dump : V → β
  load : β → Except PyError V
  load_dump : ∀ v, load (dump v) = .ok v

/-- The `Pickle` cacher object: a directory path and a file extension
(`torchdata.cachers.Pickle.__init__` stores exactly these two fields). -/
structure Pickle where
  path : FPath
  extension : String
  deriving DecidableEq, Repr

/-- The file addressed by an index:
`(self.path / str(index)).with_suffix(self.extension)`. -/
def Pickle.entryPath (c : Pickle) (i : Nat) : Except PyError FPath :=
  match pyWithSuffixName (Nat.repr i) c.extension with
  | .error e => .error e
  | .ok name => .ok (c.path ++ [name])

/-- `Pickle(path, extension)`: records the fields and runs
`path.mkdir(parents=True, exist_ok=True)` — the only side effect. -/
def Pickle.init {β : Type} (fs : FS β) (path : FPath) (ext : String) :
    Except PyError (Pickle × FS β) :=
  match fs.mkdirParents path with
  | .error e => .error e
  | .ok fs' => .ok (⟨path, ext⟩, fs')

/-- `Pickle.__contains__`: `Path((self.path / str(index)).with_suffix(self.extension)).is_file()`.
It inspects the filesystem without modifying it (hence the state-free type). -/
def Pickle.containsE {β : Type} (c : Pickle) (fs : FS β) (i : Nat) :
    Except PyError Bool :=
  match c.entryPath i with
  | .error e => .error e
  | .ok p => .ok (fs.isFile p)

/-- `Pickle.__setitem__`: open the entry file for writing and
`pickle.dump` the data into it. -/
def Pickle.set {V β : Type} (sz : Serial V β) (c : Pickle) (fs : FS β)
    (i : Nat) (v : V) : Except PyError (FS β) :=
  match c.entryPath i with
  | .error e => .error e
  | .ok p => fs.openWrite p (sz.dump v)

/-- `Pickle.__getitem__`: open the entry file for reading and
`pickle.load` its contents. -/
def Pickle.get {V β : Type} (sz : Serial V β) (c : Pickle) (fs : FS β)
    (i : Nat) : Except PyError V :=
  match c.entryPath i with
  | .error e => .error e
  | .ok p =>
    match fs.openRead p with
    | .error e => .error e
    | .ok b => sz.load b

/-- `Pickle.clean`: `if self.path.is_dir(): shutil.rmtree(self.path)`. -/
def Pickle.clean {β : Type} (c : Pickle) (fs : FS β) : FS β :=
  if fs.isDir c.path then fs.rmtree c.path else fs

/-- One cacher call made inside a `with` block. -/
inductive Cmd (V : Type) where
  | cset : Nat → V → Cmd V
  | cget : Nat → Cmd V
  | ccontains : Nat → Cmd V
  deriving DecidableEq, Repr

/-- Run one cacher call; `get`/`contains` leave the filesystem unchanged. -/
def runCmd {V β : Type} (sz : Serial V β) (c : Pickle) (fs : FS β) :
    Cmd V → Except PyError (FS β)
  | .cset i v => Pickle.set sz c fs i v
  | .cget i =>
    match Pickle.get sz c fs i with
    | .error e => .error e
    | .ok _ => .ok fs
  | .ccontains i =>
    match Pickle.containsE c fs i with
    | .error e => .error e
    | .ok _ => .ok fs

/-- Run a block of cacher calls; an exception stops the block but keeps the
filesystem mutations made so far (Python exceptions do not roll back). -/
def runCmds {V β : Type} (sz : Serial V β) (c : Pickle) (fs : FS β) :
    List (Cmd V) → Option PyError × FS β
  | [] => (none, fs)
  | cmd :: rest =>
    match runCmd sz c fs cmd with
    | .ok fs' => runCmds sz c fs' rest
    | .error e => (some e, fs)

/-- `with Pickle(path, ext) as c: <cmds>` — `__enter__` returns the cacher,
and `__exit__` calls `clean()` on every exit path, normal or exceptional,
without suppressing the exception. -/
def Pickle.withScope {V β : Type} (sz : Serial V β) (fs : FS β)
    (path : FPath) (ext : String) (cmds : List (Cmd V)) :
    Except PyError (Option PyError × FS β) :=
  match Pickle.init fs path ext with
  | .error e => .error e
  | .ok (c, fs1) =>
    let r := runCmds sz c fs1 cmds
    .ok (r.1, Pickle.clean c r.2)

/-- A sequence of `set` calls on a `Pickle` cacher, in order. -/
def Pickle.runSets {V β : Type} (sz : Serial V β) (c : Pickle) (fs : FS β) :
    List (Nat × V) → Except PyError (FS β)
  | [] => .ok fs
  | iv :: rest =>
    match Pickle.set sz c fs iv.1 iv.2 with
    | .error e => .error e
    | .ok fs' => Pickle.runSets sz c fs' rest

/-- The `Memory` cacher: a Python dictionary from indices to values. -/
structure Memory (V : Type) where
  cache : Nat → Option V

/-- `Memory.__init__`: `self.cache = {}`. -/
def Memory.init {V : Type} : Memory V := ⟨fun _ => none⟩

/-- `Memory.__contains__`: `index in self.cache`. -/
def Memory.containsB {V : Type} (m : Memory V) (i : Nat) : Bool :=
  (m.cache i).isSome

/-- `Memory.__setitem__`: `self.cache[index] = data`. -/
def Memory.set {V : Type} (m : Memory V) (i : Nat) (v : V) : Memory V :=
  ⟨fun j => if j = i then some v else m.cache j⟩

/-- `Memory.__getitem__`: `self.cache[index]`, raising `KeyError`
(the spec's `KeyNotFound`) when the index is absent. -/
def Memory.get {V : Type} (m : Memory V) (i : Nat) : Except PyError V :=
  match m.cache i with
  | some v => .ok v
  | none => .error .keyNotFound

/-- A sequence of `set` calls on a `Memory` cacher, in order. -/
def Memory.runSets {V : Type} (m : Memory V) : List (Nat × V) → Memory V
  | [] => m
  | iv :: rest => Memory.runSets (m.set iv.1 iv.2) rest

/-! ### Facts about `str(index)`, i.e. `Nat.repr` -/

/-- Digit-accumulation step: the numeric value of appending one decimal
digit character. -/
def accDigit (a : Nat) (c : Char) : Nat := a * 10 + (c.toNat - 48)

lemma digitChar_toNat (m : Nat) (hm : m < 10) : (Nat.digitChar m).toNat = 48 + m := by
  interval_cases m <;> decide

lemma digitChar_isDigit (m : Nat) (hm : m < 10) : (Nat.digitChar m).isDigit = true := by
  interval_cases m <;> decide

lemma foldl_toDigitsCore :
    ∀ (fuel n : Nat) (acc : List Char), n < fuel →
      (Nat.toDigitsCore 10 fuel n acc).foldl accDigit 0 = acc.foldl accDigit n := by
  intro fuel
  induction fuel with
  | zero => intro n acc h; exact absurd h (Nat.not_lt_zero n)
  | succ f ih =>
    intro n acc h
    have hmod : n % 10 < 10 := Nat.mod_lt _ (by omega)
    simp only [Nat.toDigitsCore]
    split
    · rename_i hdiv
      simp only [List.foldl_cons]
      have : accDigit 0 (Nat.digitChar (n % 10)) = n := by
        simp only [accDigit, digitChar_toNat _ hmod]
        omega
      rw [this]
    · rename_i hdiv
      have hlt : n / 10 < f := by
        have h1 : n / 10 < n := Nat.div_lt_self (by omega) (by omega)
        have h2 : 10 ≤ n := by
          by_contra hc
          exact hdiv (Nat.div_eq_of_lt (by omega))
        omega
      rw [ih (n / 10) _ hlt]
      simp only [List.foldl_cons]
      have : accDigit (n / 10) (Nat.digitChar (n % 10)) = n := by
        simp only [accDigit, digitChar_toNat _ hmod]
        omega
      rw [this]

lemma foldl_toDigits (n : Nat) : (Nat.toDigits 10 n).foldl accDigit 0 = n := by
  unfold Nat.toDigits
  rw [foldl_toDigitsCore (n + 1) n [] (Nat.lt_succ_self n)]
  rfl

lemma repr_injective (m n : Nat) (h : Nat.repr m = Nat.repr n) : m = n := by
  have hdata : Nat.toDigits 10 m = Nat.toDigits 10 n := by
    have := congrArg String.data h
    simpa [Nat.repr, List.asString] using this
  have := congrArg (List.foldl accDigit 0) hdata
  rwa [foldl_toDigits, foldl_toDigits] at this

lemma toDigitsCore_chars :
    ∀ (fuel n : Nat) (acc : List Char) (c : Char),
      c ∈ Nat.toDigitsCore 10 fuel n acc → c ∈ acc ∨ c.isDigit = true := by
  intro fuel
  induction fuel with
  | zero => intro n acc c hc; exact Or.inl hc
  | succ f ih =>
    intro n acc c hc
    have hmod : n % 10 < 10 := Nat.mod_lt _ (by omega)
    simp only [Nat.toDigitsCore] at hc
    split at hc
    · rcases List.mem_cons.mp hc with h | h
      · exact Or.inr (h ▸ digitChar_isDigit _ hmod)
      · exact Or.inl h
    · rcases ih _ _ _ hc with h | h
      · rcases List.mem_cons.mp h with h2 | h2
        · exact Or.inr (h2 ▸ digitChar_isDigit _ hmod)
        · exact Or.inl h2
      · exact Or.inr h

lemma repr_chars (n : Nat) : ∀ c ∈ (Nat.repr n).data, c.isDigit = true := by
  intro c hc
  have : c ∈ Nat.toDigits 10 n := by
    simpa [Nat.repr, List.asString] using hc
  rcases toDigitsCore_chars _ _ _ _ this with h | h
  · exact absurd h (List.not_mem_nil c)
  · exact h

lemma toDigitsCore_length_le :
    ∀ (fuel n : Nat) (acc : List Char),
      acc.length ≤ (Nat.toDigitsCore 10 fuel n acc).length := by
  intro fuel
  induction fuel with
  | zero => intro n acc; exact Nat.le_refl _
  | succ f ih =>
    intro n acc
    simp only [Nat.toDigitsCore]
    split
    · simp
    · calc acc.length ≤ (Nat.digitChar (n % 10) :: acc).length := by simp
        _ ≤ _ := ih _ _

lemma repr_ne_nil (n : Nat) : (Nat.repr n).data ≠ [] := by
  have h1 : (1 : Nat) ≤ (Nat.toDigits 10 n).length := by
    unfold Nat.toDigits
    simp only [Nat.toDigitsCore]
    split
    · simp
    · calc (1 : Nat) = ([Nat.digitChar (n % 10)] : List Char).length := by simp
        _ ≤ _ := by
          have := toDigitsCore_length_le n (n / 10) [Nat.digitChar (n % 10)]
          simpa using this
  intro hc
  have : (Nat.repr n).data = Nat.toDigits 10 n := by simp [Nat.repr, List.asString]
  rw [this] at hc
  rw [hc] at h1
  simp at h1

lemma lastIdxOf_eq_none (c : Char) :
    ∀ l : List Char, (∀ x ∈ l, x ≠ c) → lastIdxOf c l = none := by
  intro l
  induction l with
  | nil => intro _; rfl
  | cons x xs ih =>
    intro h
    simp only [lastIdxOf]
    rw [ih (fun y hy => h y (List.mem_cons_of_mem x hy))]
    simp only []
    rw [if_neg (h x (List.mem_cons_self x xs))]

lemma pySuffix_repr (n : Nat) : pySuffix (Nat.repr n) = "" := by
  unfold pySuffix
  rw [lastIdxOf_eq_none '.' _ ?_]
  intro x hx hxc
  have := repr_chars n x hx
  rw [hxc] at this
  exact absurd this (by decide)

lemma string_mk_append (s t : String) : String.mk (s.data ++ t.data) = s ++ t := rfl

lemma pyWithSuffixName_valid (name ext : String) (hv : validExt ext = true)
    (hname : name.data ≠ []) (hsuf : pySuffix name = "") :
    pyWithSuffixName name ext = .ok (name ++ ext) := by
  unfold validExt at hv
  simp only [Bool.and_eq_true, Bool.not_eq_true'] at hv
  unfold pyWithSuffixName
  rw [if_neg (by rw [hv.1]; simp), if_neg (of_decide_eq_false hv.2), if_neg hname]
  simp [hsuf, string_mk_append]

lemma entryPath_valid (c : Pickle) (i : Nat) (hv : validExt c.extension = true) :
    c.entryPath i = .ok (c.path ++ [Nat.repr i ++ c.extension]) := by
  unfold Pickle.entryPath
  rw [pyWithSuffixName_valid _ _ hv (repr_ne_nil i) (pySuffix_repr i)]

lemma entryName_inj (ext : String) (i j : Nat)
    (h : Nat.repr i ++ ext = Nat.repr j ++ ext) : i = j := by
  have hdata := congrArg String.data h
  simp only [String.data_append] at hdata
  have : (Nat.repr i).data = (Nat.repr j).data := List.append_cancel_right hdata
  exact repr_injective i j (congrArg String.mk this)

/-! ### Basic lemmas about the filesystem model -/

lemma memPath_iff (l : List FPath) (p : FPath) : memPath l p = true ↔ p ∈ l := by
  induction l with
  | nil => simp [memPath]
  | cons d ds ih =>
    simp only [memPath, List.mem_cons]
    split
    · rename_i h; simp [h.symm]
    · rename_i h
      rw [ih]
      constructor
      · exact Or.inr
      · rintro (h2 | h2)
        · exact absurd h2.symm h
        · exact h2

lemma lookupFile_cons_self {β : Type} (l : List (FPath × β)) (p : FPath) (b : β) :
    lookupFile ((p, b) :: l) p = some b := by
  simp [lookupFile]

lemma lookupFile_removeFile {β : Type} (l : List (FPath × β)) (p q : FPath)
    (h : q ≠ p) : lookupFile (removeFile l p) q = lookupFile l q := by
  induction l with
  | nil => rfl
  | cons e rest ih =>
    obtain ⟨r, b⟩ := e
    simp only [removeFile]
    split
    · rename_i hr
      subst hr
      rw [ih]
      simp only [lookupFile]
      rw [if_neg (fun hc => h hc.symm)]
    · simp only [lookupFile]
      split
      · rfl
      · exact ih

lemma set_ok_elim {V β : Type} {sz : Serial V β} {c : Pickle} {fs fs' : FS β}
    {i : Nat} {v : V} (hset : Pickle.set sz c fs i v = .ok fs') :
    ∃ p, c.entryPath i = .ok p ∧ memPath fs.dirs p = false ∧
      (p.dropLast = ([] : FPath) ∨ memPath fs.dirs p.dropLast) ∧
      fs' = { fs with files := (p, sz.dump v) :: removeFile fs.files p } := by
  unfold Pickle.set at hset
  split at hset
  · exact absurd hset (by simp)
  · rename_i p hp
    refine ⟨p, hp, ?_⟩
    unfold FS.openWrite at hset
    split at hset
    · exact absurd hset (by simp)
    · rename_i hdir
      split at hset
      · rename_i hpar
        simp only [Except.ok.injEq] at hset
        exact ⟨Bool.of_not_eq_true hdir, hpar, hset.symm⟩
      · exact absurd hset (by simp)

lemma set_roundtrip {V β : Type} (sz : Serial V β) (c : Pickle) {fs fs' : FS β}
    {i : Nat} {v : V} (hset : Pickle.set sz c fs i v = .ok fs') :
    Pickle.containsE c fs' i = .ok true ∧ Pickle.get sz c fs' i = .ok v := by
  obtain ⟨p, hp, hdir, hpar, hfs⟩ := set_ok_elim hset
  constructor
  · unfold Pickle.containsE
    rw [hp]
    subst hfs
    simp [FS.isFile, lookupFile_cons_self]
  · unfold Pickle.get
    rw [hp]
    subst hfs
    unfold FS.openRead
    simp only [hdir]
    rw [if_neg (by simp)]
    rw [lookupFile_cons_self]
    exact sz.load_dump v

/-! ### Shared concrete instances used by the witnesses -/

/-- The identity serializer on `Nat`: a concrete instance of the round-trip
law that `pickle` provides. -/
def sz0 : Serial Nat Nat := ⟨fun v => v, fun b => .ok b, fun _ => rfl⟩

/-- A concrete cacher over directory `cache` with the default extension. -/
def c0 : Pickle := ⟨["cache"], ".pkl"⟩

/-- A filesystem in which the directory `cache` exists and is empty. -/
def fs0 : FS Nat := ⟨[["cache"]], []⟩

/-- `fs0` after `set(0, 7)`. -/
def fs1 : FS Nat := ⟨[["cache"]], [(["cache", "0.pkl"], 7)]⟩

/-! ### Claims -/

/-- Claim C1: round-trip law. After `set(i, v)`, `contains(i)` is true and
`get(i)` returns a value equal to `v`, for the `Memory` backend and for the
`Pickle` backend (where the value survives `pickle.dump`/`pickle.load`,
modelled by the serializer's round-trip law). -/
theorem claim_c1_roundtrip {V β : Type} (sz : Serial V β) (m : Memory V)
    (c : Pickle) (fs fs' : FS β) (i : Nat) (v : V)
    (hset : Pickle.set sz c fs i v = .ok fs') :
    Memory.containsB (Memory.set m i v) i = true ∧
    Memory.get (Memory.set m i v) i = .ok v ∧
    Pickle.containsE c fs' i = .ok true ∧
    Pickle.get sz c fs' i = .ok v := by
  obtain ⟨hcon, hget⟩ := set_roundtrip sz c hset
  exact ⟨by simp [Memory.containsB, Memory.set],
         by simp [Memory.get, Memory.set], hcon, hget⟩

theorem claim_c1_witness :
    Memory.containsB (Memory.set (Memory.init : Memory Nat) 0 7) 0 = true ∧
    Memory.get (Memory.set (Memory.init : Memory Nat) 0 7) 0 = .ok 7 ∧
    Pickle.containsE c0 fs1 0 = .ok true ∧
    Pickle.get sz0 c0 fs1 0 = .ok 7 :=
  claim_c1_roundtrip sz0 Memory.init c0 fs0 fs1 0 7 (by rfl)

lemma memPath_eq_false (l : List FPath) (p : FPath) :
    memPath l p = false ↔ p ∉ l := by
  rw [← memPath_iff]
  constructor
  · intro h hc; rw [hc] at h; cases h
  · intro h; cases hm : memPath l p
    · rfl
    · exact absurd hm h

lemma pathLe_refl (p : FPath) : pathLe p p = true := by
  induction p with
  | nil => rfl
  | cons x xs ih => simp [pathLe, ih]

lemma pathLe_append (p l : FPath) : pathLe p (p ++ l) = true := by
  induction p with
  | nil => rfl
  | cons x xs ih => simp [pathLe, ih]

lemma lookupFile_mem {β : Type} :
    ∀ (l : List (FPath × β)) (q : FPath) (b : β),
      lookupFile l q = some b → (q, b) ∈ l := by
  intro l
  induction l with
  | nil => intro q b h; cases h
  | cons e rest ih =>
    intro q b h
    obtain ⟨r, b'⟩ := e
    simp only [lookupFile] at h
    split at h
    · rename_i hr
      subst hr
      cases h
      exact List.mem_cons_self _ _
    · exact List.mem_cons_of_mem _ (ih q b h)

lemma isFile_rmtree {β : Type} (fs : FS β) (p q : FPath)
    (h : pathLe p q = true) : (fs.rmtree p).isFile q = false := by
  unfold FS.isFile FS.rmtree
  cases hl : lookupFile (fs.files.filter (fun e => !(pathLe p e.1))) q
  · rfl
  · rename_i b
    have hmem := lookupFile_mem _ q b hl
    have := (List.mem_filter.mp hmem).2
    simp only [h] at this
    cases this

lemma isDir_rmtree {β : Type} (fs : FS β) (p q : FPath)
    (h : pathLe p q = true) : (fs.rmtree p).isDir q = false := by
  unfold FS.isDir FS.rmtree
  rw [memPath_eq_false]
  intro hc
  have := (List.mem_filter.mp hc).2
  simp only [h] at this
  cases this

lemma self_mem_initsOf : ∀ p : FPath, p ≠ [] → p ∈ initsOf p := by
  intro p
  induction p with
  | nil => intro h; exact absurd rfl h
  | cons x xs ih =>
    intro _
    cases xs with
    | nil => exact List.mem_cons_self _ _
    | cons y ys =>
      simp only [initsOf]
      exact List.mem_cons_of_mem _ (List.mem_map_of_mem (x :: ·) (ih (by simp)))

lemma init_ok_elim {β : Type} {fs fs' : FS β} {path : FPath} {ext : String}
    {c : Pickle} (h : Pickle.init fs path ext = .ok (c, fs')) :
    c = ⟨path, ext⟩ ∧ fs' = { fs with dirs := initsOf path ++ fs.dirs } := by
  unfold Pickle.init at h
  split at h
  · cases h
  · rename_i fsA heq
    simp only [Except.ok.injEq, Prod.mk.injEq] at h
    unfold FS.mkdirParents at heq
    split at heq
    · cases heq
    · simp only [Except.ok.injEq] at heq
      exact ⟨h.1.symm, h.2.symm.trans heq.symm⟩

/-- Claim C3: `clean()` on a `Pickle` removes the backing directory and
everything under it (directories and files alike) when the directory
exists, and is an error-free no-op when it is absent. -/
theorem claim_c3_clean {β : Type} (c : Pickle) (fs : FS β) :
    (fs.isDir c.path = true →
      ∀ q : FPath, pathLe c.path q = true →
        (Pickle.clean c fs).isDir q = false ∧
        (Pickle.clean c fs).isFile q = false) ∧
    (fs.isDir c.path = false → Pickle.clean c fs = fs) := by
  constructor
  · intro hdir q hq
    unfold Pickle.clean
    rw [if_pos hdir]
    exact ⟨isDir_rmtree fs c.path q hq, isFile_rmtree fs c.path q hq⟩
  · intro hdir
    unfold Pickle.clean
    rw [hdir]
    simp

theorem claim_c3_witness :
    ((Pickle.clean c0 fs1).isDir ["cache"] = false ∧
      (Pickle.clean c0 fs1).isFile ["cache", "0.pkl"] = false) ∧
    Pickle.clean c0 (⟨[], []⟩ : FS Nat) = ⟨[], []⟩ :=
  ⟨⟨((claim_c3_clean c0 fs1).1 (by rfl) ["cache"] (by rfl)).1,
    ((claim_c3_clean c0 fs1).1 (by rfl) ["cache", "0.pkl"] (by rfl)).2⟩,
   (claim_c3_clean c0 ⟨[], []⟩).2 (by rfl)⟩

/-- Claim C4: constructing a `Pickle` over a directory only ensures the
directory exists (creating parents), leaves all files unchanged, and the
resulting cacher's `contains` agrees with a cacher over the old state —
so previously set indices are still observed as contained. -/
theorem claim_c4_init {β : Type} (fs fs' : FS β) (path : FPath) (ext : String)
    (c : Pickle) (hpath : path ≠ [])
    (hinit : Pickle.init fs path ext = .ok (c, fs')) :
    c = ⟨path, ext⟩ ∧
    fs'.files = fs.files ∧
    fs'.isDir path = true ∧
    ∀ i, Pickle.containsE c fs' i = Pickle.containsE (⟨path, ext⟩ : Pickle) fs i := by
  obtain ⟨hc, hfs⟩ := init_ok_elim hinit
  subst hc
  subst hfs
  refine ⟨rfl, rfl, ?_, ?_⟩
  · unfold FS.isDir
    rw [memPath_iff]
    exact List.mem_append_left _ (self_mem_initsOf path hpath)
  · intro i
    unfold Pickle.containsE
    rfl

/-- The empty-directory filesystem `fs0` with the directory not yet made. -/
def fsP : FS Nat := ⟨[], [(["cache", "0.pkl"], 7)]⟩

/-- `fsP` after the directory `cache` has been created. -/
def fsP' : FS Nat := ⟨[["cache"]], [(["cache", "0.pkl"], 7)]⟩

theorem claim_c4_witness :
    c0 = (⟨["cache"], ".pkl"⟩ : Pickle) ∧
    fsP'.files = fsP.files ∧
    fsP'.isDir ["cache"] = true ∧
    Pickle.containsE c0 fsP' 0 = Pickle.containsE (⟨["cache"], ".pkl"⟩ : Pickle) fsP 0 := by
  have h := claim_c4_init fsP fsP' ["cache"] ".pkl" c0 (by decide) (by rfl)
  exact ⟨h.1, h.2.1, h.2.2.1, h.2.2.2 0⟩

/-- Claim C5: file naming. With a `with_suffix`-accepted extension `E`,
`set(i, v)` writes exactly one file, directly under the cacher's path and
named `str(i) ++ E` (base-10), replacing any previous file of that name and
touching nothing else; `contains(i)` and `get(i)` address that same file. -/
theorem claim_c5_naming {V β : Type} (sz : Serial V β) (c : Pickle)
    (fs fs' : FS β) (i : Nat) (v : V)
    (hv : validExt c.extension = true)
    (hset : Pickle.set sz c fs i v = .ok fs') :
    fs'.dirs = fs.dirs ∧
    fs'.files = (c.path ++ [Nat.repr i ++ c.extension], sz.dump v) ::
      removeFile fs.files (c.path ++ [Nat.repr i ++ c.extension]) ∧
    Pickle.containsE c fs' i = .ok true ∧
    Pickle.get sz c fs' i = .ok v := by
  obtain ⟨p, hp, hdir, hpar, hfs⟩ := set_ok_elim hset
  have hpv : p = c.path ++ [Nat.repr i ++ c.extension] := by
    rw [entryPath_valid c i hv] at hp
    exact (Except.ok.injEq _ _).mp hp.symm
  obtain ⟨hcon, hget⟩ := set_roundtrip sz c hset
  subst hpv
  subst hfs
  exact ⟨rfl, rfl, hcon, hget⟩

theorem claim_c5_witness :
    fs1.dirs = fs0.dirs ∧
    fs1.files = (["cache"] ++ [Nat.repr 0 ++ ".pkl"], sz0.dump 7) ::
      removeFile fs0.files (["cache"] ++ [Nat.repr 0 ++ ".pkl"]) ∧
    Pickle.containsE c0 fs1 0 = .ok true ∧
    Pickle.get sz0 c0 fs1 0 = .ok 7 :=
  claim_c5_naming sz0 c0 fs0 fs1 0 7 (by rfl) (by rfl)

/-- Claim C6: overwrite semantics. Setting the same index twice with the
same value leaves `contains` true and `get` equal to that value; setting a
different value afterwards overwrites, so `get` returns the new value and
not the old one — for the `Memory` backend and the `Pickle` backend. -/
theorem claim_c6_overwrite {V β : Type} (sz : Serial V β) (m : Memory V)
    (c : Pickle) (fs fs1 fs2 fs2' : FS β) (i : Nat) (v v2 : V)
    (hne : v2 ≠ v)
    (hset1 : Pickle.set sz c fs i v = .ok fs1)
    (hset2 : Pickle.set sz c fs1 i v = .ok fs2)
    (hset3 : Pickle.set sz c fs1 i v2 = .ok fs2') :
    (Memory.containsB ((m.set i v).set i v) i = true ∧
     Memory.get ((m.set i v).set i v) i = .ok v ∧
     Memory.get ((m.set i v).set i v2) i = .ok v2 ∧
     Memory.get ((m.set i v).set i v2) i ≠ .ok v) ∧
    (Pickle.containsE c fs2 i = .ok true ∧
     Pickle.get sz c fs2 i = .ok v ∧
     Pickle.containsE c fs2' i = .ok true ∧
     Pickle.get sz c fs2' i = .ok v2 ∧
     Pickle.get sz c fs2' i ≠ .ok v) := by
  obtain ⟨hcon2, hget2⟩ := set_roundtrip sz c hset2
  obtain ⟨hcon3, hget3⟩ := set_roundtrip sz c hset3
  refine ⟨⟨by simp [Memory.containsB, Memory.set],
           by simp [Memory.get, Memory.set],
           by simp [Memory.get, Memory.set],
           ?_⟩,
          hcon2, hget2, hcon3, hget3, ?_⟩
  · simp only [Memory.get, Memory.set, if_pos rfl]
    intro hc
    exact hne ((Except.ok.injEq _ _).mp hc)
  · intro hc
    rw [hget3] at hc
    exact hne ((Except.ok.injEq _ _).mp hc)

/-- `fs1` after overwriting index `0` with the value `8`. -/
def fs2b : FS Nat := ⟨[["cache"]], [(["cache", "0.pkl"], 8)]⟩

theorem claim_c6_witness :
    (Memory.containsB (((Memory.init : Memory Nat).set 0 7).set 0 7) 0 = true ∧
     Memory.get (((Memory.init : Memory Nat).set 0 7).set 0 7) 0 = .ok 7 ∧
     Memory.get (((Memory.init : Memory Nat).set 0 7).set 0 8) 0 = .ok 8 ∧
     Memory.get (((Memory.init : Memory Nat).set 0 7).set 0 8) 0 ≠ .ok 7) ∧
    (Pickle.containsE c0 fs1 0 = .ok true ∧
     Pickle.get sz0 c0 fs1 0 = .ok 7 ∧
     Pickle.containsE c0 fs2b 0 = .ok true ∧
     Pickle.get sz0 c0 fs2b 0 = .ok 8 ∧
     Pickle.get sz0 c0 fs2b 0 ≠ .ok 7) :=
  claim_c6_overwrite sz0 Memory.init c0 fs0 fs1 fs1 fs2b 0 7 8
    (by decide) (by rfl) (by rfl) (by rfl)

/-- The value stored by the most recent `set` for an index in a list of
`set` calls (later entries are more recent), if any. -/
def lastStored {V : Type} : List (Nat × V) → Nat → Option V
  | [], _ => none
  | iv :: rest, i =>
    match lastStored rest i with
    | some v => some v
    | none => if iv.1 = i then some iv.2 else none

lemma runSets_cache {V : Type} :
    ∀ (l : List (Nat × V)) (m : Memory V) (i : Nat),
      (Memory.runSets m l).cache i =
        match lastStored l i with
        | some v => some v
        | none => m.cache i := by
  intro l
  induction l with
  | nil => intro m i; rfl
  | cons iv rest ih =>
    intro m i
    simp only [Memory.runSets, lastStored]
    rw [ih]
    cases hrest : lastStored rest i with
    | some v => rfl
    | none =>
      simp only [Memory.set]
      by_cases hi : iv.1 = i
      · subst hi
        simp
      · rw [if_neg hi, if_neg (fun hc => hi hc.symm)]

lemma lastStored_none_iff {V : Type} :
    ∀ (l : List (Nat × V)) (i : Nat),
      lastStored l i = none ↔ i ∉ l.map Prod.fst := by
  intro l
  induction l with
  | nil => intro i; simp [lastStored]
  | cons iv rest ih =>
    intro i
    simp only [lastStored, List.map_cons, List.mem_cons]
    cases hrest : lastStored rest i with
    | some v =>
      simp only []
      constructor
      · intro hc; cases hc
      · intro hc
        have := (ih i).mpr (fun h3 => hc (Or.inr h3))
        rw [hrest] at this
        cases this
    | none =>
      simp only []
      constructor
      · intro h
        rintro (h1 | h2)
        · rw [if_pos h1.symm] at h; cases h
        · exact (ih i).mp hrest h2
      · intro h
        rw [if_neg (fun hc => h (Or.inl hc.symm))]

/-- Claim C7: `Memory.get(i)` fails with `KeyNotFound` exactly when `i` was
never set on that cacher, and returns the most recently stored value
whenever `i` was set (so the error cannot occur when callers respect the
`contains` precondition). -/
theorem claim_c7_memory_get {V : Type} (l : List (Nat × V)) (i : Nat) :
    (Memory.get (Memory.runSets Memory.init l) i = .error .keyNotFound ↔
      i ∉ l.map Prod.fst) ∧
    (∀ v, lastStored l i = some v →
      Memory.get (Memory.runSets Memory.init l) i = .ok v) ∧
    ((lastStored l i).isSome = true ↔ i ∈ l.map Prod.fst) := by
  have hc := runSets_cache l (Memory.init : Memory V) i
  refine ⟨?_, ?_, ?_⟩
  · unfold Memory.get
    rw [hc]
    cases hls : lastStored l i with
    | some v =>
      simp only [Memory.init]
      constructor
      · intro h; cases h
      · intro h
        rw [(lastStored_none_iff l i).mpr h] at hls
        cases hls
    | none =>
      simp only [Memory.init]
      constructor
      · intro _; exact (lastStored_none_iff l i).mp hls
      · intro _; trivial
  · intro v hv
    unfold Memory.get
    rw [hc, hv]
  · cases hls : lastStored l i with
    | some v =>
      simp only [Option.isSome_some, true_iff]
      by_contra h
      rw [(lastStored_none_iff l i).mpr h] at hls
      cases hls
    | none =>
      simp only [Option.isSome_none, Bool.false_eq_true, false_iff]
      exact (lastStored_none_iff l i).mp hls

theorem claim_c7_witness :
    (Memory.get (Memory.runSets (Memory.init : Memory Nat) [(0, 7)]) 1 =
        .error .keyNotFound ↔ 1 ∉ ([(0, 7)] : List (Nat × Nat)).map Prod.fst) ∧
    Memory.get (Memory.runSets (Memory.init : Memory Nat) [(0, 7)]) 0 = .ok 7 :=
  ⟨(claim_c7_memory_get [(0, 7)] 1).1,
   (claim_c7_memory_get [(0, 7)] 0).2.1 7 (by rfl)⟩

/-- Claim C8 counterexample: with the extension `"pkl"` (no leading dot)
supplied at construction, `contains(0)` raises `ValueError` (from
`with_suffix`) instead of returning a boolean — the claim's "regardless of
the extension string supplied at construction" fails. -/
theorem claim_c8_counterexample :
    Pickle.containsE (⟨["cache"], "pkl"⟩ : Pickle) fs0 0 = .error .valueError := by
  rfl

/-- Claim C8 (amended): for extensions accepted by `with_suffix` (empty, or
starting with a dot, not a bare dot, and without a separator), `contains`
never raises and returns whether the entry file exists — the condition for
a subsequent `get` to be expected to succeed; the `Memory` backend's
`contains` is total and is true exactly when `get` does not fail.  In the
embedding `contains` takes the filesystem only as an input and returns no
state, so it has no side effects by construction. -/
theorem claim_c8_contains_amended {V β : Type} (c : Pickle) (fs : FS β)
    (i : Nat) (m : Memory V) (hv : validExt c.extension = true) :
    Pickle.containsE c fs i =
      .ok (fs.isFile (c.path ++ [Nat.repr i ++ c.extension])) ∧
    (Memory.containsB m i = true ↔ Memory.get m i ≠ .error .keyNotFound) := by
  constructor
  · unfold Pickle.containsE
    rw [entryPath_valid c i hv]
  · unfold Memory.containsB Memory.get
    cases m.cache i <;> simp

theorem claim_c8_witness :
    Pickle.containsE c0 fs1 0 =
      .ok (fs1.isFile (["cache"] ++ [Nat.repr 0 ++ ".pkl"])) ∧
    (Memory.containsB (Memory.init : Memory Nat) 0 = true ↔
      Memory.get (Memory.init : Memory Nat) 0 ≠ .error .keyNotFound) :=
  claim_c8_contains_amended c0 fs1 0 Memory.init (by rfl)

lemma isFile_eq_false_iff {β : Type} (fs : FS β) (p : FPath) :
    fs.isFile p = false ↔ lookupFile fs.files p = none := by
  unfold FS.isFile
  cases lookupFile fs.files p <;> simp

lemma lookupFile_cons_ne {β : Type} (l : List (FPath × β)) (p q : FPath)
    (b : β) (h : p ≠ q) : lookupFile ((p, b) :: l) q = lookupFile l q := by
  simp only [lookupFile]
  rw [if_neg h]

lemma entry_ne_of_ne (c : Pickle) (i j : Nat) (h : i ≠ j) :
    (c.path ++ [Nat.repr i ++ c.extension] : FPath) ≠
      c.path ++ [Nat.repr j ++ c.extension] := by
  intro hc
  have h2 := List.append_cancel_left hc
  simp only [List.cons.injEq, and_true] at h2
  exact h (entryName_inj c.extension i j h2)

lemma containsE_valid {β : Type} (c : Pickle) (fs : FS β) (i : Nat)
    (hv : validExt c.extension = true) :
    Pickle.containsE c fs i =
      .ok (fs.isFile (c.path ++ [Nat.repr i ++ c.extension])) := by
  unfold Pickle.containsE
  rw [entryPath_valid c i hv]

lemma set_valid_eq {V β : Type} (sz : Serial V β) (c : Pickle) (fs : FS β)
    (i : Nat) (v : V) (hv : validExt c.extension = true) :
    Pickle.set sz c fs i v =
      fs.openWrite (c.path ++ [Nat.repr i ++ c.extension]) (sz.dump v) := by
  unfold Pickle.set
  rw [entryPath_valid c i hv]

lemma runSets_not_contains {V β : Type} (sz : Serial V β) (c : Pickle)
    (hv : validExt c.extension = true) :
    ∀ (l : List (Nat × V)) (fs fs' : FS β) (i : Nat),
      fs.isFile (c.path ++ [Nat.repr i ++ c.extension]) = false →
      Pickle.runSets sz c fs l = .ok fs' →
      i ∉ l.map Prod.fst →
      fs'.isFile (c.path ++ [Nat.repr i ++ c.extension]) = false := by
  intro l
  induction l with
  | nil =>
    intro fs fs' i hfile hrun _
    simp only [Pickle.runSets, Except.ok.injEq] at hrun
    exact hrun ▸ hfile
  | cons iv rest ih =>
    intro fs fs' i hfile hrun hni
    simp only [List.map_cons, List.mem_cons] at hni
    push_neg at hni
    simp only [Pickle.runSets] at hrun
    split at hrun
    · cases hrun
    · rename_i fsA heq
      obtain ⟨p, hp, _, _, hfsA⟩ := set_ok_elim heq
      rw [entryPath_valid c iv.1 hv] at hp
      have hpv : p = c.path ++ [Nat.repr iv.1 ++ c.extension] :=
        (Except.ok.injEq _ _).mp hp.symm
      refine ih fsA fs' i ?_ hrun hni.2
      rw [isFile_eq_false_iff] at hfile ⊢
      subst hfsA
      subst hpv
      rw [lookupFile_cons_ne _ _ _ _ (entry_ne_of_ne c iv.1 i (fun hc => hni.1 hc.symm))]
      rw [lookupFile_removeFile _ _ _ (entry_ne_of_ne c i iv.1 hni.1)]
      exact hfile

/-- Claim C9: an index never set is not contained — for a fresh `Memory`
cacher, and for a `Pickle` cacher over a directory whose entry files were
only ever produced by `set` calls for other indices. -/
theorem claim_c9_never_set {V β : Type} (sz : Serial V β) (c : Pickle)
    (fs fs' : FS β) (l : List (Nat × V)) (i : Nat)
    (hv : validExt c.extension = true)
    (hfresh : ∀ j : Nat, fs.isFile (c.path ++ [Nat.repr j ++ c.extension]) = false)
    (hrun : Pickle.runSets sz c fs l = .ok fs')
    (hni : i ∉ l.map Prod.fst) :
    Pickle.containsE c fs' i = .ok false ∧
    Memory.containsB (Memory.init : Memory V) i = false := by
  refine ⟨?_, rfl⟩
  rw [containsE_valid c fs' i hv]
  rw [runSets_not_contains sz c hv l fs fs' i (hfresh i) hrun hni]

theorem claim_c9_witness :
    Pickle.containsE c0 fs1 1 = .ok false ∧
    Memory.containsB (Memory.init : Memory Nat) 1 = false :=
  claim_c9_never_set sz0 c0 fs0 fs1 [(0, 7)] 1 (by rfl) (fun _ => rfl)
    (by rfl) (by decide)

/-- Claim C10: after `clean()` removed the backing directory (and before
any new cacher re-creates it), `contains(i)` returns false without raising
for every index, while `set(i, v)` fails with a filesystem "not found"
error for every index and value, because `set` opens the entry file inside
the now-absent directory and does not re-create it. -/
theorem claim_c10_post_clean {V β : Type} (sz : Serial V β) (c : Pickle)
    (fs : FS β) (i : Nat) (v : V)
    (hv : validExt c.extension = true)
    (hpath : c.path ≠ [])
    (hdir : fs.isDir c.path = true) :
    Pickle.containsE c (Pickle.clean c fs) i = .ok false ∧
    Pickle.set sz c (Pickle.clean c fs) i v = .error .fileNotFound := by
  have hclean : Pickle.clean c fs = fs.rmtree c.path := by
    unfold Pickle.clean
    rw [if_pos hdir]
  rw [hclean]
  have hple : pathLe c.path (c.path ++ [Nat.repr i ++ c.extension]) = true :=
    pathLe_append _ _
  constructor
  · rw [containsE_valid c _ i hv]
    rw [isFile_rmtree fs c.path _ hple]
  · rw [set_valid_eq sz c _ i v hv]
    unfold FS.openWrite
    have hd1 : memPath (fs.rmtree c.path).dirs
        (c.path ++ [Nat.repr i ++ c.extension]) = false := by
      have := isDir_rmtree fs c.path _ hple
      unfold FS.isDir at this
      exact this
    have hdrop : (c.path ++ [Nat.repr i ++ c.extension] : FPath).dropLast = c.path :=
      List.dropLast_concat
    have hd2 : memPath (fs.rmtree c.path).dirs
        (c.path ++ [Nat.repr i ++ c.extension] : FPath).dropLast = false := by
      rw [hdrop]
      have := isDir_rmtree fs c.path c.path (pathLe_refl _)
      unfold FS.isDir at this
      exact this
    rw [if_neg (by rw [hd1]; simp)]
    rw [if_neg ?_]
    rintro (h | h)
    · rw [hdrop] at h
      exact hpath h
    · rw [hd2] at h
      cases h

theorem claim_c10_witness :
    Pickle.containsE c0 (Pickle.clean c0 fs1) 0 = .ok false ∧
    Pickle.set sz0 c0 (Pickle.clean c0 fs1) 0 7 = .error .fileNotFound :=
  claim_c10_post_clean sz0 c0 fs1 0 7 (by rfl) (by decide) (by rfl)

lemma runCmd_dirs {V β : Type} {sz : Serial V β} {c : Pickle} {fs fs' : FS β}
    {cmd : Cmd V} (h : runCmd sz c fs cmd = .ok fs') : fs'.dirs = fs.dirs := by
  cases cmd with
  | cset i v =>
    simp only [runCmd] at h
    obtain ⟨p, _, _, _, hfs⟩ := set_ok_elim h
    rw [hfs]
  | cget i =>
    simp only [runCmd] at h
    split at h
    · cases h
    · simp only [Except.ok.injEq] at h
      rw [h]
  | ccontains i =>
    simp only [runCmd] at h
    split at h
    · cases h
    · simp only [Except.ok.injEq] at h
      rw [h]

lemma runCmds_dirs {V β : Type} (sz : Serial V β) (c : Pickle) :
    ∀ (cmds : List (Cmd V)) (fs : FS β),
      ((runCmds sz c fs cmds).2).dirs = fs.dirs := by
  intro cmds
  induction cmds with
  | nil => intro fs; rfl
  | cons cmd rest ih =>
    intro fs
    simp only [runCmds]
    split
    · rename_i fsA heq
      rw [ih fsA, runCmd_dirs heq]
    · rfl

lemma isFile_congr {β : Type} {fs gs : FS β} (p : FPath)
    (h : fs.files = gs.files) : fs.isFile p = gs.isFile p := by
  unfold FS.isFile
  rw [h]

/-- Claim C2: scoped cleanup. Running a `with Pickle(path, ext)` block over
any sequence of cacher calls — whether the block exits normally or via an
exception raised by one of the calls — always runs `clean()` on exit, so
the backing directory is absent afterwards, and a fresh cacher constructed
at the same path then reports `contains(i) = false` for every index. -/
theorem claim_c2_scoped {V β : Type} (sz : Serial V β) (fs fsOut : FS β)
    (path : FPath) (ext : String) (cmds : List (Cmd V))
    (r : Option PyError) (c2 : Pickle) (fs2 : FS β) (i : Nat)
    (hpath : path ≠ [])
    (hone : ∃ j v, Cmd.cset j v ∈ cmds)
    (hv : validExt ext = true)
    (hscope : Pickle.withScope sz fs path ext cmds = .ok (r, fsOut))
    (hreinit : Pickle.init fsOut path ext = .ok (c2, fs2)) :
    fsOut.isDir path = false ∧
    Pickle.containsE c2 fs2 i = .ok false := by
  unfold Pickle.withScope at hscope
  split at hscope
  · cases hscope
  · rename_i c1 fs1 heqInit
    obtain ⟨hc1, hfs1⟩ := init_ok_elim heqInit
    simp only [Except.ok.injEq, Prod.mk.injEq] at hscope
    obtain ⟨_, hOut⟩ := hscope
    have hdirB : ((runCmds sz c1 fs1 cmds).2).isDir c1.path = true := by
      unfold FS.isDir
      rw [runCmds_dirs sz c1 cmds fs1]
      rw [hfs1, hc1]
      rw [memPath_iff]
      exact List.mem_append_left _ (self_mem_initsOf path hpath)
    have hcleanEq : Pickle.clean c1 ((runCmds sz c1 fs1 cmds).2) =
        ((runCmds sz c1 fs1 cmds).2).rmtree c1.path := by
      unfold Pickle.clean
      rw [if_pos hdirB]
    rw [hcleanEq] at hOut
    have hfsOut : fsOut = ((runCmds sz c1 fs1 cmds).2).rmtree c1.path := hOut.symm
    obtain ⟨hc2, hfs2⟩ := init_ok_elim hreinit
    constructor
    · rw [hfsOut, hc1]
      exact isDir_rmtree _ path path (pathLe_refl path)
    · have hext2 : c2.extension = ext := by rw [hc2]
      rw [containsE_valid c2 fs2 i (by rw [hext2]; exact hv)]
      have hfiles : fs2.files = fsOut.files := by rw [hfs2]
      rw [isFile_congr _ hfiles]
      rw [hfsOut, hc2, hc1]
      rw [isFile_rmtree _ path _ (pathLe_append _ _)]

/-- The empty filesystem: no directories, no files. -/
def fsE : FS Nat := ⟨[], []⟩

theorem claim_c2_witness :
    (⟨[], []⟩ : FS Nat).isDir ["cache"] = false ∧
    Pickle.containsE c0 fs0 3 = .ok false :=
  claim_c2_scoped sz0 fsE ⟨[], []⟩ ["cache"] ".pkl"
    [Cmd.cset 0 7, Cmd.cget 5] (some .fileNotFound) c0 fs0 3
    (by decide) ⟨0, 7, List.mem_cons_self _ _⟩ (by rfl) (by rfl) (by rfl)

end Cachers
